import Mathlib

/-
Verification of the pull-request-title-validator core (Go sources,
src/unnamed/part_004): the title parser (splitTitle, extractTypeAndScope),
the rule validators (checkAgainstConventionTypes, checkAgainstScopes), the
configuration-list parsing (parseTypes, parseScopes), the overall pass/fail
policy of main, and the payload decoding of fetchTitle.

Strings are modelled through their character lists.  Go regular expressions
are modelled by a Brzozowski-derivative matcher over an executable fragment
of RE2 (ASCII literals, dot, character classes, the escapes d/w/s/D/W/S and
escaped punctuation, one postfix repetition per atom); a pattern outside the
fragment compiles to none, which also stands for the regexp.MustCompile
panic on an invalid pattern (there the Go process dies, here the run is the
none value).  The (?i) flag is ASCII case folding inside the matcher; the
two exotic Unicode foldings (Kelvin sign with k, long s with s) are not
modelled, in line with the ASCII reading of the library case functions used
throughout.
-/

set_option maxHeartbeats 1000000

namespace PRTitleValidator

/-- Whitespace trimmed by Go strings.TrimSpace (ASCII plus the Latin-1
space characters). -/
def isSpace (c : Char) : Bool :=
  c == ' ' || c == '\t' || c == '\n' || c == '\r' || c.val == 11 || c.val == 12 ||
    c.val == 0x85 || c.val == 0xA0

/-- Go strings.TrimSpace on a character list: drop whitespace from both ends. -/
def trimList (cs : List Char) : List Char :=
  ((cs.dropWhile isSpace).reverse.dropWhile isSpace).reverse

/-- Go strings.Contains for a single-character substring. -/
def hasChar (cs : List Char) (c : Char) : Bool :=
  cs.any (fun d => d == c)

/-- Go strings.Cut for a single-character separator: split at the first
occurrence, returning none when the separator is absent. -/
def cutList (cs : List Char) (sep : Char) : Option (List Char × List Char) :=
  match cs with
  | [] => none
  | c :: rest =>
    if c = sep then some ([], rest)
    else
      match cutList rest sep with
      | none => none
      | some (a, b) => some (c :: a, b)

/-- Go strings.Split on the comma separator, over character lists. -/
def splitComma : List Char → List (List Char)
  | [] => [[]]
  | c :: cs =>
    if c = ',' then [] :: splitComma cs
    else
      match splitComma cs with
      | [] => [[c]]
      | g :: gs => (c :: g) :: gs

/-- Joining comma-separated segments back together; used to state that
splitting preserves order and empty segments. -/
def joinComma : List (List Char) → List Char
  | [] => []
  | [g] => g
  | g :: gs => g ++ ',' :: joinComma gs

/-- Leftmost match of the fixed Go regular expression \(([^)]+)\) used by
extractTypeAndScope: scan for the first position holding a left paren that
is followed by one or more non-right-paren characters and then a right
paren; return the captured group. -/
def scanScope : List Char → Option (List Char)
  | [] => none
  | c :: rest =>
    if c = '(' ∧ rest.takeWhile (fun d => d != ')') ≠ [] ∧
        rest.drop (rest.takeWhile (fun d => d != ')')).length ≠ [] then
      some (rest.takeWhile (fun d => d != ')'))
    else scanScope rest

/-- Abstract syntax of the supported fragment of Go (RE2) regular
expressions. -/
inductive Regex where
  | emp : Regex
  | eps : Regex
  | chr : Char → Regex
  | dot : Regex
  | cls : Bool → List (Char × Char) → Regex
  | cat : Regex → Regex → Regex
  | alt : Regex → Regex → Regex
  | star : Regex → Regex

/-- Character-class membership under the (?i) flag: the character or one of
its ASCII case variants lies inside some range (Go folds the class elements,
which is equivalent over ASCII); negated classes flip the result. -/
def clsMatch (neg : Bool) (items : List (Char × Char)) (c : Char) : Bool :=
  let inRanges := fun (d : Char) => items.any (fun lohi => lohi.1 ≤ d && d ≤ lohi.2)
  let inside := inRanges c || inRanges c.toLower || inRanges c.toUpper
  if neg then !inside else inside

/-- Whether a regular expression accepts the empty string. -/
def nullable : Regex → Bool
  | .emp => false
  | .eps => true
  | .chr _ => false
  | .dot => false
  | .cls _ _ => false
  | .cat a b => nullable a && nullable b
  | .alt a b => nullable a || nullable b
  | .star _ => true

/-- Brzozowski derivative by one character.  A literal matches up to ASCII
case folding, modelling the (?i) flag; the Go dot does not match a
newline. -/
def deriv : Regex → Char → Regex
  | .emp, _ => .emp
  | .eps, _ => .emp
  | .chr c, d => if c.toLower = d.toLower then .eps else .emp
  | .dot, d => if d = '\n' then .emp else .eps
  | .cls neg items, d => if clsMatch neg items d then .eps else .emp
  | .cat a b, d => if nullable a then .alt (.cat (deriv a d) b) (deriv b d) else .cat (deriv a d) b
  | .alt a b, d => .alt (deriv a d) (deriv b d)
  | .star a, d => .cat (deriv a d) (.star a)

/-- Whole-string match via iterated derivatives. -/
def rmatch (r : Regex) (cs : List Char) : Bool :=
  nullable (cs.foldl deriv r)

/-- Match of an end-anchored pattern against an unanchored input: some
suffix of the input is matched entirely, so the match ends exactly at the
end of the string. -/
def suffixMatch (r : Regex) : List Char → Bool
  | [] => rmatch r []
  | c :: cs => rmatch r (c :: cs) || suffixMatch r cs

/-- Character classes written with a backslash; Go whitespace \s is
[\t\n\f\r ], the form feed included. -/
def escClassOf (c : Char) : Option (List (Char × Char)) :=
  if c = 'd' then some [('0', '9')]
  else if c = 'w' then some [('0', '9'), ('a', 'z'), ('A', 'Z'), ('_', '_')]
  else if c = 's' then
    some [(' ', ' '), ('\t', '\t'), ('\n', '\n'), ('\x0c', '\x0c'), ('\r', '\r')]
  else none

/-- Punctuation that may follow a backslash as an escaped literal. -/
def escLits : List Char :=
  ['\\', '.', '+', '*', '?', '(', ')', '|', '[', ']', '-', '^', '$', '/']

/-- Characters that cannot stand alone as a literal atom.  Groups,
alternation, anchors and counted repetition are outside the supported
fragment, so patterns using them are rejected by the compiler below. -/
def metaChars : List Char :=
  ['\\', '.', '+', '*', '?', '(', ')', '|', '[', ']', '$', '^', '{']

/-- Body of a bracket character class, up to the closing bracket.  An
escape expands to the Go d/w/s class or an escaped punctuation literal
(an unknown escape is rejected, as in Go); a dash right after an escaped
item would form a range out of it, an error in Go, so it is rejected
unless it is the literal trailing dash; ranges need ordered plain ASCII
endpoints (Go errors on a reversed range).  Patterns using what is
rejected here fall outside the supported fragment. -/
def parseClassItems : List Char → Option (List (Char × Char) × List Char)
  | [] => none
  | ']' :: rest => some ([], rest)
  | '\\' :: c :: rest =>
    let items :=
      match escClassOf c with
      | some items => some items
      | none => if escLits.contains c then some [(c, c)] else none
    match items with
    | none => none
    | some items =>
      match rest with
      | '-' :: d :: _ =>
        if d = ']' then (parseClassItems rest).map (fun ir => (items ++ ir.1, ir.2))
        else none
      | _ => (parseClassItems rest).map (fun ir => (items ++ ir.1, ir.2))
  | c :: '-' :: d :: rest =>
    if d = ']' then
      if c.val < 128 then some ([(c, c), ('-', '-')], rest) else none
    else if d = '\\' then none
    else if c ≤ d ∧ c.val < 128 ∧ d.val < 128 then
      (parseClassItems rest).map (fun ir => ((c, d) :: ir.1, ir.2))
    else none
  | c :: rest =>
    if c.val < 128 then (parseClassItems rest).map (fun ir => ((c, c) :: ir.1, ir.2))
    else none

/-- One atom of the supported pattern fragment; the upper-case escapes
D, W and S are the negations of the d, w and s classes, as in Go. -/
def parseAtom : List Char → Option (Regex × List Char)
  | [] => none
  | '.' :: rest => some (.dot, rest)
  | '\\' :: c :: rest =>
    match escClassOf c with
    | some items => some (.cls false items, rest)
    | none =>
      if c = 'D' ∨ c = 'W' ∨ c = 'S' then
        match escClassOf c.toLower with
        | some items => some (.cls true items, rest)
        | none => none
      else if escLits.contains c then some (.chr c, rest)
      else none
  | '[' :: '^' :: rest =>
    match parseClassItems rest with
    | none => none
    | some (items, rest2) => if items.isEmpty then none else some (.cls true items, rest2)
  | '[' :: rest =>
    match parseClassItems rest with
    | none => none
    | some (items, rest2) => if items.isEmpty then none else some (.cls false items, rest2)
  | c :: rest =>
    if c.val ≥ 128 then none
    else if metaChars.contains c then none
    else some (.chr c, rest)

/-- At most one postfix repetition operator on an atom: Go rejects nested
repetition such as a** or a?* (MustCompile panics there), so a second
operator in a row is left in place for parseSeq, whose next parseAtom call
rejects it. -/
def parseRep1 (r : Regex) : List Char → Regex × List Char
  | '*' :: rest => (.star r, rest)
  | '+' :: rest => (.cat r (.star r), rest)
  | '?' :: rest => (.alt r .eps, rest)
  | rest => (r, rest)

/-- A sequence of repeated atoms; the fuel bounds the recursion depth and is
always sufficient because every atom consumes at least one character. -/
def parseSeq : Nat → List Char → Option (Regex × List Char)
  | 0, _ => none
  | _ + 1, [] => some (.eps, [])
  | f + 1, c :: cs =>
    match parseAtom (c :: cs) with
    | none => none
    | some (r, rest) =>
      let rr := parseRep1 r rest
      match parseSeq f rr.2 with
      | none => none
      | some (r2, rest2) => some (.cat rr.1 r2, rest2)

/-- Compilation of the Go call regexp.MustCompile with the pattern
"(?i)" ++ pat ++ "$": the pattern is parsed as written (the (?i) flag
lives in the matcher as ASCII case folding) and the final end anchor is
modelled by suffixMatch.  A pattern outside the supported fragment yields
none. -/
def compileScopePattern (pat : String) : Option Regex :=
  match parseSeq (pat.data.length + 1) pat.data with
  | some (r, []) => some r
  | _ => none

/-- The MatchString call of checkAgainstScopes; none models the MustCompile
panic on a pattern outside the supported fragment. -/
def goRegexMatch (pat s : String) : Option Bool :=
  match compileScopePattern pat with
  | none => none
  | some r => some (suffixMatch r s.data)

/-- Source: defaultConventionTypes, part_004 line 16. -/
def defaultConventionTypes : List String :=
  ["fix", "feat", "chore", "docs", "build", "ci", "refactor", "perf", "test"]

/-- Source: extractTypeAndScope, part_004 lines 129-149.  The argument is
trimmed; when it contains both parens and the regex \(([^)]+)\) finds a
group, the scope is the group and the type is the trimmed text before the
first left paren (strings.Split on the left paren, first segment);
otherwise the whole trimmed argument is the type. -/
def extractTypeAndScope (pre : String) : String × String :=
  let p := trimList pre.data
  if hasChar p '(' && hasChar p ')' then
    match scanScope p with
    | some g => (String.mk (trimList (p.takeWhile (fun d => d != '('))), String.mk g)
    | none => (String.mk p, "")
  else (String.mk p, "")

/-- The two parse failures of splitTitle; in Go each is an os.Exit with a
distinct log message. -/
inductive ParseError where
  | missingSeparator : ParseError
  | missingType : ParseError
deriving DecidableEq

/-- Source: splitTitle, part_004 lines 102-127.  strings.Cut on the first
colon; the message is the trimmed remainder; an empty extracted type is a
failure. -/
def splitTitle (title : String) : Except ParseError (String × String × String) :=
  match cutList title.data ':' with
  | none => Except.error ParseError.missingSeparator
  | some (pre, msg) =>
    let ts := extractTypeAndScope (String.mk pre)
    if ts.1 = "" then Except.error ParseError.missingType
    else Except.ok (ts.1, ts.2, String.mk (trimList msg))

/-- Source: checkAgainstConventionTypes, part_004 lines 151-159: first
exact string match wins, otherwise an error (quotes of the Go message
omitted). -/
def checkAgainstConventionTypes (titleType : String) (conventionTypes : List String) : Except String Unit :=
  match conventionTypes with
  | [] => Except.error ("type " ++ titleType ++ " is not allowed")
  | c :: rest =>
    if titleType = c then Except.ok ()
    else checkAgainstConventionTypes titleType rest

/-- Source: checkAgainstScopes, part_004 lines 161-169: each pattern is
compiled as "(?i)" ++ pattern ++ "$" and matched against the scope; the
first match wins, otherwise an error.  none models the MustCompile panic. -/
def checkAgainstScopes (titleScope : String) (scopes : List String) : Option (Except String Unit) :=
  match scopes with
  | [] => some (Except.error ("scope " ++ titleScope ++ " is not allowed"))
  | p :: rest =>
    match goRegexMatch p titleScope with
    | none => none
    | some true => some (Except.ok ())
    | some false => checkAgainstScopes titleScope rest

/-- Source: parseTypes, part_004 lines 171-183. -/
def parseTypes (input : String) (fallback : List String) : List String :=
  if input = "" then fallback
  else (splitComma input.data).map (fun g => String.mk (trimList g))

/-- Source: parseScopes, part_004 lines 185-197. -/
def parseScopes (input : String) : List String :=
  if input = "" then []
  else (splitComma input.data).map (fun g => String.mk (trimList g))

/-- Source: main, part_004 lines 62-74: exit (some false) when the type
check fails; exit when the scope check fails and at least one scope pattern
is configured; otherwise success.  none models a MustCompile panic inside
the scope check. -/
def mainValidation (titleType titleScope : String) (parsedTypes parsedScopes : List String) : Option Bool :=
  match checkAgainstConventionTypes titleType parsedTypes with
  | Except.error _ => some false
  | Except.ok _ =>
    match checkAgainstScopes titleScope parsedScopes with
    | none => none
    | some (Except.ok _) => some true
    | some (Except.error _) => if parsedScopes.length ≥ 1 then some false else some true

/-- JSON values, for the event payload consumed by fetchTitle. -/
inductive Json where
  | null : Json
  | bool : Bool → Json
  | num : Int → Json
  | str : String → Json
  | arr : List Json → Json
  | obj : List (String × Json) → Json

/-- Go encoding/json field-name matching (strings.EqualFold, restricted to
ASCII case folding). -/
def eqFold (a b : String) : Bool :=
  a.data.map Char.toLower == b.data.map Char.toLower

/-- Unmarshalling a JSON value into a Go string field: a string replaces
the current value, null leaves it unchanged, anything else is a type
error. -/
def decodeStringInto (v : Json) (cur : String) : Except String String :=
  match v with
  | Json.str s => Except.ok s
  | Json.null => Except.ok cur
  | _ => Except.error "json: cannot unmarshal"

/-- Unmarshalling into the PullRequest struct: only the title member is
read, unknown members are ignored, null leaves the struct unchanged. -/
def decodePullRequestInto (v : Json) (cur : String) : Except String String :=
  match v with
  | Json.null => Except.ok cur
  | Json.obj fields =>
    fields.foldl
      (fun acc kv =>
        acc.bind (fun c => if eqFold kv.1 "title" then decodeStringInto kv.2 c else Except.ok c))
      (Except.ok cur)
  | _ => Except.error "json: cannot unmarshal"

/-- Source: fetchTitle, part_004 lines 84-100, after the file read: the
payload is unmarshalled into Event (a struct holding pull_request.title)
and the nested title is returned.  A payload or member of the wrong shape
is an unmarshal error (os.Exit in Go); a missing member is the zero value,
the empty string. -/
def fetchTitle (payload : Json) : Except String String :=
  match payload with
  | Json.null => Except.ok ""
  | Json.obj fields =>
    fields.foldl
      (fun acc kv =>
        acc.bind (fun c => if eqFold kv.1 "pull_request" then decodePullRequestInto kv.2 c else Except.ok c))
      (Except.ok "")
  | _ => Except.error "json: cannot unmarshal"

/-- A non-empty parenthetical group of the prefix: at position i there is a
left paren, then the non-empty group g free of right parens, then a right
paren. -/
def IsGroupAt (cs : List Char) (i : Nat) (g : List Char) : Prop :=
  g ≠ [] ∧ ')' ∉ g ∧ ∃ rest, cs.drop i = '(' :: (g ++ ')' :: rest)

theorem hasChar_iff (cs : List Char) (c : Char) : hasChar cs c = true ↔ c ∈ cs := by
  constructor
  · intro h
    obtain ⟨d, hd, he⟩ := List.any_eq_true.mp h
    exact (beq_iff_eq.mp he) ▸ hd
  · intro h
    exact List.any_eq_true.mpr ⟨c, h, beq_self_eq_true c⟩

theorem hasChar_eq_false_iff (cs : List Char) (c : Char) :
    hasChar cs c = false ↔ c ∉ cs := by
  rw [← Bool.not_eq_true, not_iff_not]
  exact hasChar_iff cs c

theorem cutList_eq_none_iff (cs : List Char) (sep : Char) :
    cutList cs sep = none ↔ sep ∉ cs := by
  induction cs with
  | nil => simp [cutList]
  | cons c rest ih =>
    simp only [cutList, List.mem_cons]
    by_cases hc : c = sep
    · subst hc
      simp
    · rw [if_neg hc]
      cases hcut : cutList rest sep with
      | none =>
        have hrest : sep ∉ rest := ih.mp hcut
        constructor
        · intro _
          rintro (h | h)
          · exact hc h.symm
          · exact hrest h
        · intro _
          rfl
      | some ab =>
        have hin : sep ∈ rest := by
          by_contra hn
          have h2 := ih.mpr hn
          rw [hcut] at h2
          exact Option.noConfusion h2
        constructor
        · intro h
          exact Option.noConfusion h
        · intro h
          exact absurd (Or.inr hin) h

theorem cutList_of_decomp (a b : List Char) (sep : Char) (ha : sep ∉ a) :
    cutList (a ++ sep :: b) sep = some (a, b) := by
  induction a with
  | nil => simp [cutList]
  | cons c a ih =>
    have hc : c ≠ sep := fun h => ha (h ▸ List.mem_cons_self c a)
    have ha2 : sep ∉ a := fun h => ha (List.mem_cons_of_mem _ h)
    rw [List.cons_append]
    simp only [cutList, if_neg hc]
    rw [ih ha2]

theorem splitComma_ne_nil (cs : List Char) : splitComma cs ≠ [] := by
  induction cs with
  | nil => simp [splitComma]
  | cons c rest ih =>
    simp only [splitComma]
    by_cases hc : c = ','
    · simp [hc]
    · simp only [if_neg hc]
      cases h : splitComma rest with
      | nil => simp
      | cons g gs => simp

theorem joinComma_splitComma (cs : List Char) : joinComma (splitComma cs) = cs := by
  induction cs with
  | nil => simp [splitComma, joinComma]
  | cons c rest ih =>
    simp only [splitComma]
    by_cases hc : c = ','
    · subst hc
      simp only [if_pos rfl]
      cases h : splitComma rest with
      | nil => exact absurd h (splitComma_ne_nil rest)
      | cons g gs =>
        rw [h] at ih
        simp [joinComma, ih]
    · simp only [if_neg hc]
      cases h : splitComma rest with
      | nil => exact absurd h (splitComma_ne_nil rest)
      | cons g gs =>
        rw [h] at ih
        cases gs with
        | nil =>
          simp only [joinComma] at ih
          simp [joinComma, ih]
        | cons g2 gs2 =>
          simp only [joinComma] at ih ⊢
          simp [ih]

theorem splitComma_no_comma (cs : List Char) : ∀ g ∈ splitComma cs, ',' ∉ g := by
  induction cs with
  | nil =>
    intro g hg
    simp [splitComma] at hg
    simp [hg]
  | cons c rest ih =>
    intro g hg
    simp only [splitComma] at hg
    by_cases hc : c = ','
    · rw [if_pos hc] at hg
      rcases List.mem_cons.mp hg with h | h
      · simp [h]
      · exact ih g h
    · rw [if_neg hc] at hg
      cases h : splitComma rest with
      | nil => exact absurd h (splitComma_ne_nil rest)
      | cons g0 gs =>
        rw [h] at hg
        rcases List.mem_cons.mp hg with h2 | h2
        · subst h2
          intro hmem
          rcases List.mem_cons.mp hmem with h3 | h3
          · exact hc h3.symm
          · exact ih g0 (h ▸ List.mem_cons_self g0 gs) h3
        · exact ih g (h ▸ List.mem_cons_of_mem _ h2)

theorem drop_takeWhile_length (p : Char → Bool) (l : List Char) :
    l.drop (l.takeWhile p).length = l.dropWhile p := by
  induction l with
  | nil => simp
  | cons c rest ih =>
    by_cases hc : p c
    · simp [List.takeWhile_cons, List.dropWhile_cons, hc, ih]
    · simp [List.takeWhile_cons, List.dropWhile_cons, hc]

theorem dropWhile_eq_cons_head_false (p : Char → Bool) (l : List Char) (y : Char)
    (r : List Char) (h : l.dropWhile p = y :: r) : p y = false := by
  induction l with
  | nil => simp at h
  | cons c rest ih =>
    by_cases hc : p c
    · rw [List.dropWhile_cons, if_pos hc] at h
      exact ih h
    · rw [List.dropWhile_cons, if_neg hc] at h
      injection h with h1 _
      subst h1
      exact eq_false_of_ne_true hc

theorem takeWhile_append_sep (p : Char → Bool) (g : List Char) (y : Char) (r : List Char)
    (hg : ∀ x ∈ g, p x = true) (hy : p y = false) :
    (g ++ y :: r).takeWhile p = g := by
  induction g with
  | nil => simp [List.takeWhile_cons, hy]
  | cons c gs ih =>
    have hc : p c = true := hg c (List.mem_cons_self c gs)
    rw [List.cons_append, List.takeWhile_cons, if_pos hc,
      ih (fun x hx => hg x (List.mem_cons_of_mem _ hx))]

theorem isGroupAt_shift (c : Char) (cs : List Char) (i : Nat) (g : List Char) :
    IsGroupAt (c :: cs) (i + 1) g ↔ IsGroupAt cs i g := by
  unfold IsGroupAt
  rw [List.drop_succ_cons]

theorem nosep_append_inj (g g2 r r2 : List Char) (hg : ')' ∉ g) (hg2 : ')' ∉ g2)
    (h : g ++ ')' :: r = g2 ++ ')' :: r2) : g = g2 := by
  induction g generalizing g2 with
  | nil =>
    cases g2 with
    | nil => rfl
    | cons d gs2 =>
      rw [List.nil_append, List.cons_append] at h
      cases h
      exact absurd (List.mem_cons_self _ gs2) hg2
  | cons c gs ih =>
    cases g2 with
    | nil =>
      rw [List.nil_append, List.cons_append] at h
      cases h
      exact absurd (List.mem_cons_self _ gs) hg
    | cons d gs2 =>
      rw [List.cons_append, List.cons_append] at h
      injection h with h1 h2
      subst h1
      rw [ih gs2 (fun hm => hg (List.mem_cons_of_mem _ hm))
        (fun hm => hg2 (List.mem_cons_of_mem _ hm)) h2]

theorem isGroupAt_unique (cs : List Char) (i : Nat) (g g2 : List Char)
    (h : IsGroupAt cs i g) (h2 : IsGroupAt cs i g2) : g = g2 := by
  obtain ⟨_, hg, r, hr⟩ := h
  obtain ⟨_, hg2, r2, hr2⟩ := h2
  rw [hr] at hr2
  injection hr2 with _ h3
  exact nosep_append_inj g g2 r r2 hg hg2 h3

theorem all_bne_of_not_mem (g : List Char) (y : Char) (hnm : y ∉ g) :
    ∀ x ∈ g, (x != y) = true := by
  intro x hx
  rw [bne_iff_ne]
  intro he
  exact hnm (he ▸ hx)

theorem isGroupAt_zero_eq (c : Char) (rest g : List Char)
    (h : IsGroupAt (c :: rest) 0 g) : g = rest.takeWhile (fun d => d != ')') := by
  obtain ⟨hne, hnm, r, hr⟩ := h
  rw [List.drop_zero] at hr
  injection hr with h1 h2
  rw [h2]
  rw [takeWhile_append_sep _ g ')' r (all_bne_of_not_mem g ')' hnm) (by simp)]

theorem isGroupAt_zero_iff (c : Char) (rest : List Char) :
    (∃ g, IsGroupAt (c :: rest) 0 g) ↔
      (c = '(' ∧ rest.takeWhile (fun d => d != ')') ≠ [] ∧
        rest.drop (rest.takeWhile (fun d => d != ')')).length ≠ []) := by
  constructor
  · rintro ⟨g, hne, hnm, r, hr⟩
    rw [List.drop_zero] at hr
    injection hr with h1 h2
    have htake : rest.takeWhile (fun d => d != ')') = g := by
      rw [h2]
      exact takeWhile_append_sep _ g ')' r (all_bne_of_not_mem g ')' hnm) (by simp)
    refine ⟨h1, htake ▸ hne, ?_⟩
    rw [htake, h2, List.drop_left]
    simp
  · rintro ⟨hc, hne, hdrop⟩
    subst hc
    rw [drop_takeWhile_length] at hdrop
    obtain ⟨y, r, hyr⟩ : ∃ y r, rest.dropWhile (fun d => d != ')') = y :: r := by
      cases hd : rest.dropWhile (fun d => d != ')') with
      | nil => exact absurd hd hdrop
      | cons y r => exact ⟨y, r, rfl⟩
    have hy : y = ')' := by
      have h5 := dropWhile_eq_cons_head_false _ rest y r hyr
      simpa using h5
    refine ⟨rest.takeWhile (fun d => d != ')'), hne, ?_, r, ?_⟩
    · intro hmem
      have h6 := List.mem_takeWhile_imp hmem
      simp at h6
    · rw [List.drop_zero]
      have h7 : rest.takeWhile (fun d => d != ')') ++ rest.dropWhile (fun d => d != ')') = rest :=
        List.takeWhile_append_dropWhile _ _
      rw [hyr, hy] at h7
      rw [h7]

theorem scanScope_some_spec (cs g : List Char) (h : scanScope cs = some g) :
    ∃ i, IsGroupAt cs i g ∧ ∀ j g2, IsGroupAt cs j g2 → i ≤ j := by
  induction cs with
  | nil => simp [scanScope] at h
  | cons c rest ih =>
    rw [scanScope] at h
    by_cases hcond : c = '(' ∧ rest.takeWhile (fun d => d != ')') ≠ [] ∧
        rest.drop (rest.takeWhile (fun d => d != ')')).length ≠ []
    · rw [if_pos hcond] at h
      injection h with h
      refine ⟨0, ?_, fun j g2 _ => Nat.zero_le j⟩
      obtain ⟨g0, hg0⟩ := (isGroupAt_zero_iff c rest).mpr hcond
      have h8 : g0 = g := (isGroupAt_zero_eq c rest g0 hg0).trans h
      exact h8 ▸ hg0
    · rw [if_neg hcond] at h
      obtain ⟨i, hgi, hmin⟩ := ih h
      refine ⟨i + 1, (isGroupAt_shift c rest i g).mpr hgi, ?_⟩
      intro j g2 hj
      cases j with
      | zero =>
        exact absurd ((isGroupAt_zero_iff c rest).mp ⟨g2, hj⟩) hcond
      | succ j2 =>
        exact Nat.succ_le_succ (hmin j2 g2 ((isGroupAt_shift c rest j2 g2).mp hj))

theorem scanScope_none_spec (cs : List Char) (h : scanScope cs = none) :
    ∀ i g, ¬ IsGroupAt cs i g := by
  induction cs with
  | nil =>
    intro i g hg
    obtain ⟨hne, _, r, hr⟩ := hg
    simp at hr
  | cons c rest ih =>
    rw [scanScope] at h
    by_cases hcond : c = '(' ∧ rest.takeWhile (fun d => d != ')') ≠ [] ∧
        rest.drop (rest.takeWhile (fun d => d != ')')).length ≠ []
    · rw [if_pos hcond] at h
      exact Option.noConfusion h
    · rw [if_neg hcond] at h
      intro i g hg
      cases i with
      | zero => exact hcond ((isGroupAt_zero_iff c rest).mp ⟨g, hg⟩)
      | succ i2 => exact ih h i2 g ((isGroupAt_shift c rest i2 g).mp hg)

theorem isGroupAt_mem (cs : List Char) (i : Nat) (g : List Char)
    (h : IsGroupAt cs i g) : '(' ∈ cs ∧ ')' ∈ cs := by
  obtain ⟨_, _, r, hr⟩ := h
  constructor
  · exact List.drop_subset i cs (hr ▸ List.mem_cons_self _ _)
  · refine List.drop_subset i cs (hr ▸ ?_)
    exact List.mem_cons_of_mem _ (List.mem_append_right g (List.mem_cons_self _ _))

theorem extract_of_scan_some (pre : String) (g : List Char)
    (hs : scanScope (trimList pre.data) = some g) :
    extractTypeAndScope pre =
      (String.mk (trimList ((trimList pre.data).takeWhile (fun d => d != '('))), String.mk g) := by
  obtain ⟨i, hgi, _⟩ := scanScope_some_spec _ g hs
  obtain ⟨hl, hr⟩ := isGroupAt_mem _ i g hgi
  have hgate : (hasChar (trimList pre.data) '(' && hasChar (trimList pre.data) ')') = true := by
    rw [(hasChar_iff _ _).mpr hl, (hasChar_iff _ _).mpr hr]
    rfl
  simp only [extractTypeAndScope, hgate, if_true, hs]

theorem extract_of_scan_none (pre : String)
    (hs : scanScope (trimList pre.data) = none) :
    extractTypeAndScope pre = (String.mk (trimList pre.data), "") := by
  simp only [extractTypeAndScope]
  by_cases hgate : (hasChar (trimList pre.data) '(' && hasChar (trimList pre.data) ')') = true
  · simp only [hgate, if_true, hs]
  · rw [if_neg hgate]

theorem extract_of_no_close (pre : String)
    (hc : hasChar (trimList pre.data) ')' = false) :
    extractTypeAndScope pre = (String.mk (trimList pre.data), "") := by
  simp [extractTypeAndScope, hc]

theorem suffixMatch_iff (r : Regex) (cs : List Char) :
    suffixMatch r cs = true ↔ ∃ a b, cs = a ++ b ∧ rmatch r b = true := by
  induction cs with
  | nil =>
    simp only [suffixMatch]
    constructor
    · intro h
      exact ⟨[], [], rfl, h⟩
    · rintro ⟨a, b, hab, hb⟩
      obtain ⟨ha, hbe⟩ := List.append_eq_nil.mp hab.symm
      subst hbe
      exact hb
  | cons c cs ih =>
    simp only [suffixMatch, Bool.or_eq_true]
    constructor
    · rintro (h | h)
      · exact ⟨[], c :: cs, rfl, h⟩
      · obtain ⟨a, b, hab, hb⟩ := ih.mp h
        exact ⟨c :: a, b, by rw [List.cons_append, hab], hb⟩
    · rintro ⟨a, b, hab, hb⟩
      cases a with
      | nil =>
        left
        rw [List.nil_append] at hab
        rw [← hab] at hb
        exact hb
      | cons a0 as =>
        right
        rw [List.cons_append] at hab
        injection hab with _ h2
        exact ih.mpr ⟨as, b, h2, hb⟩

theorem suffixMatch_eps (cs : List Char) : suffixMatch Regex.eps cs = true := by
  induction cs with
  | nil => decide
  | cons c cs ih => simp [suffixMatch, ih]

theorem checkAgainstScopes_total (s : String) (ps : List String)
    (h : ∀ p ∈ ps, (compileScopePattern p).isSome = true) :
    ∃ r, checkAgainstScopes s ps = some r := by
  induction ps with
  | nil => exact ⟨_, rfl⟩
  | cons p rest ih =>
    obtain ⟨r, hr⟩ := Option.isSome_iff_exists.mp (h p (List.mem_cons_self p rest))
    simp only [checkAgainstScopes, goRegexMatch, hr]
    cases hb : suffixMatch r s.data with
    | false =>
      exact ih (fun q hq => h q (List.mem_cons_of_mem _ hq))
    | true => exact ⟨_, rfl⟩

theorem decodePR_fold_no_title (pfs : List (String × Json)) (c : String)
    (h : ∀ kv ∈ pfs, eqFold kv.1 "title" = false) :
    pfs.foldl
      (fun acc kv =>
        acc.bind (fun c2 => if eqFold kv.1 "title" then decodeStringInto kv.2 c2 else Except.ok c2))
      (Except.ok c) = Except.ok c := by
  induction pfs generalizing c with
  | nil => rfl
  | cons kv rest ih =>
    have hk := h kv (List.mem_cons_self kv rest)
    have hstep : ((Except.ok c).bind
        (fun c2 => if eqFold kv.1 "title" then decodeStringInto kv.2 c2 else Except.ok c2) :
        Except String String) = Except.ok c := by
      show (if eqFold kv.1 "title" then decodeStringInto kv.2 c else Except.ok c) = Except.ok c
      rw [hk]
      simp
    rw [List.foldl_cons, hstep]
    exact ih c (fun q hq => h q (List.mem_cons_of_mem _ hq))

theorem fetchTitle_fold_ok (fs : List (String × Json))
    (h : ∀ kv ∈ fs, eqFold kv.1 "pull_request" = true →
        kv.2 = Json.null ∨
          ∃ pfs, kv.2 = Json.obj pfs ∧ ∀ kv2 ∈ pfs, eqFold kv2.1 "title" = false) :
    fs.foldl
      (fun acc kv =>
        acc.bind
          (fun c => if eqFold kv.1 "pull_request" then decodePullRequestInto kv.2 c else Except.ok c))
      (Except.ok "") = Except.ok "" := by
  induction fs with
  | nil => rfl
  | cons kv rest ih =>
    have hstep : ((Except.ok "").bind
        (fun c => if eqFold kv.1 "pull_request" then decodePullRequestInto kv.2 c else Except.ok c) :
        Except String String) = Except.ok "" := by
      show (if eqFold kv.1 "pull_request" then decodePullRequestInto kv.2 "" else Except.ok "") =
        Except.ok ""
      by_cases hk : eqFold kv.1 "pull_request" = true
      · rw [hk]
        simp only [if_true]
        rcases h kv (List.mem_cons_self kv rest) hk with hnull | ⟨pfs, hobj, hno⟩
        · rw [hnull]
          rfl
        · rw [hobj]
          simp only [decodePullRequestInto]
          exact decodePR_fold_no_title pfs "" hno
      · rw [Bool.not_eq_true] at hk
        rw [hk]
        simp
    rw [List.foldl_cons, hstep]
    exact ih (fun q hq => h q (List.mem_cons_of_mem _ hq))

/-- Claim C5: for every type string t and allowed-type list ts,
checkAgainstConventionTypes (the validateType of the spec) succeeds exactly
when t is, case-sensitively, equal to some entry of ts, the first matching
entry winning; a case difference such as FEAT against feat fails. -/
theorem claim5_type_exact_match (ty : String) (ts : List String) :
    ((checkAgainstConventionTypes ty ts = Except.ok ()) ↔ ty ∈ ts) ∧
      checkAgainstConventionTypes "FEAT" ["feat", "fix", "chore"] ≠ Except.ok () := by
  constructor
  · induction ts with
    | nil => simp [checkAgainstConventionTypes]
    | cons c rest ih =>
      simp only [checkAgainstConventionTypes, List.mem_cons]
      by_cases hc : ty = c
      · simp [hc]
      · rw [if_neg hc, ih]
        constructor
        · exact Or.inr
        · rintro (h | h)
          · exact absurd h hc
          · exact h
  · intro h
    exact Except.noConfusion
      (show (Except.error ("type " ++ "FEAT" ++ " is not allowed") : Except String Unit) =
        Except.ok () from h)

/-- Claim C4: parsing splits on the first colon only: with no colon in the
title, the parse fails with MissingSeparator (and only then); otherwise,
writing the title as pre ++ colon ++ rest with no colon in pre, any
successful parse returns as message the trimmed rest, with any further
colons kept inside it. -/
theorem claim4_first_colon_split (t : String) :
    ((hasChar t.data ':' = false) ↔ splitTitle t = Except.error ParseError.missingSeparator) ∧
      (∀ pre msg, t.data = pre ++ ':' :: msg → ':' ∉ pre →
        ∀ ty sc m, splitTitle t = Except.ok (ty, sc, m) → m = String.mk (trimList msg)) := by
  constructor
  · constructor
    · intro h
      have hn : cutList t.data ':' = none :=
        (cutList_eq_none_iff _ _).mpr ((hasChar_eq_false_iff _ _).mp h)
      simp [splitTitle, hn]
    · intro h
      cases hcut : cutList t.data ':' with
      | none => exact (hasChar_eq_false_iff _ _).mpr ((cutList_eq_none_iff _ _).mp hcut)
      | some pm =>
        obtain ⟨pre, msg⟩ := pm
        exfalso
        simp only [splitTitle, hcut] at h
        by_cases hty : (extractTypeAndScope (String.mk pre)).1 = ""
        · rw [if_pos hty] at h
          injection h with h2
          exact ParseError.noConfusion h2
        · rw [if_neg hty] at h
          exact Except.noConfusion h
  · intro pre msg hdec hpre ty sc m hok
    have hcut : cutList t.data ':' = some (pre, msg) := by
      rw [hdec]
      exact cutList_of_decomp pre msg ':' hpre
    simp only [splitTitle, hcut] at hok
    by_cases hty : (extractTypeAndScope (String.mk pre)).1 = ""
    · rw [if_pos hty] at hok
      exact Except.noConfusion hok
    · rw [if_neg hty] at hok
      injection hok with h2
      injection h2 with ha hb
      injection hb with hb1 hb2
      exact hb2.symm

/-- Witness for C4 at the title feat: a: b, whose message keeps the second
colon. -/
theorem claim4_witness : ("a: b" : String) = String.mk (trimList (" a: b").data) :=
  (claim4_first_colon_split "feat: a: b").2 ("feat").data (" a: b").data (by decide) (by decide)
    "feat" "" "a: b" rfl

/-- Claim C7: a successful parse never returns an empty type; whenever the
extracted type of the colon-split prefix is empty (as for a title starting
with a colon), the parse fails with MissingType. -/
theorem claim7_type_nonempty (t : String) :
    (∀ ty sc m, splitTitle t = Except.ok (ty, sc, m) → ty ≠ "") ∧
      (∀ pre msg, t.data = pre ++ ':' :: msg → ':' ∉ pre →
        (extractTypeAndScope (String.mk pre)).1 = "" →
        splitTitle t = Except.error ParseError.missingType) := by
  constructor
  · intro ty sc m hok
    cases hcut : cutList t.data ':' with
    | none => simp [splitTitle, hcut] at hok
    | some pm =>
      obtain ⟨pre, msg⟩ := pm
      simp only [splitTitle, hcut] at hok
      by_cases hty : (extractTypeAndScope (String.mk pre)).1 = ""
      · rw [if_pos hty] at hok
        exact Except.noConfusion hok
      · rw [if_neg hty] at hok
        injection hok with h2
        injection h2 with ha hb
        rw [← ha]
        exact hty
  · intro pre msg hdec hpre hty
    have hcut : cutList t.data ':' = some (pre, msg) := by
      rw [hdec]
      exact cutList_of_decomp pre msg ':' hpre
    simp only [splitTitle, hcut]
    rw [if_pos hty]

/-- Witness for C7 at the title starting with a colon. -/
theorem claim7_witness : splitTitle ": msg" = Except.error ParseError.missingType :=
  (claim7_type_nonempty ": msg").2 [] (" msg").data (by decide) (by decide) rfl

/-- Claim C6: a colon-split prefix containing an opening paren but no
closing paren is not treated as holding a scope: the whole trimmed prefix,
the literal paren included, becomes the type, the scope is empty, and the
parse succeeds with them. -/
theorem claim6_unclosed_paren (t : String) :
    ∀ pre msg, t.data = pre ++ ':' :: msg → ':' ∉ pre →
      hasChar (trimList pre) '(' = true → hasChar (trimList pre) ')' = false →
      extractTypeAndScope (String.mk pre) = (String.mk (trimList pre), "") ∧
        splitTitle t = Except.ok (String.mk (trimList pre), "", String.mk (trimList msg)) := by
  intro pre msg hdec hpre hopen hclose
  have hex : extractTypeAndScope (String.mk pre) = (String.mk (trimList pre), "") :=
    extract_of_no_close (String.mk pre) hclose
  refine ⟨hex, ?_⟩
  have hcut : cutList t.data ':' = some (pre, msg) := by
    rw [hdec]
    exact cutList_of_decomp pre msg ':' hpre
  have htyne : ¬((extractTypeAndScope (String.mk pre)).1 = "") := by
    rw [hex]
    intro h
    have hd : trimList pre = [] := congrArg String.data h
    rw [hd] at hopen
    simp [hasChar] at hopen
  simp only [splitTitle, hcut]
  rw [if_neg htyne, hex]

/-- Witness for C6 at the title feat(api: msg. -/
theorem claim6_witness :
    extractTypeAndScope (String.mk ("feat(api").data) =
        (String.mk (trimList ("feat(api").data), "") ∧
      splitTitle "feat(api: msg" =
        Except.ok (String.mk (trimList ("feat(api").data), "", String.mk (trimList (" msg").data)) :=
  claim6_unclosed_paren "feat(api: msg" ("feat(api").data (" msg").data (by decide) (by decide)
    (by decide) (by decide)

/-- Claim C2: for every scope s and pattern list ps (of patterns inside the
supported regex fragment), checkAgainstScopes (the validateScope of the
spec) succeeds exactly when some pattern of ps, compiled case-insensitively
and anchored at the end, matches a trailing substring of s (the first match
winning); on the empty pattern list it returns the ScopeNotAllowed error
for every scope, the empty scope included. -/
theorem claim2_scope_regex_match (s : String) (ps : List String)
    (h : ∀ p ∈ ps, (compileScopePattern p).isSome = true) :
    ((checkAgainstScopes s ps = some (Except.ok ())) ↔
      ∃ p, p ∈ ps ∧ ∃ r a b, compileScopePattern p = some r ∧
        s.data = a ++ b ∧ rmatch r b = true) ∧
      checkAgainstScopes s [] = some (Except.error ("scope " ++ s ++ " is not allowed")) := by
  refine ⟨?_, rfl⟩
  induction ps with
  | nil =>
    constructor
    · intro hk
      simp [checkAgainstScopes] at hk
    · rintro ⟨p, hp, _⟩
      exact absurd hp (List.not_mem_nil p)
  | cons p rest ih =>
    obtain ⟨r, hr⟩ := Option.isSome_iff_exists.mp (h p (List.mem_cons_self p rest))
    have hrest : ∀ q ∈ rest, (compileScopePattern q).isSome = true :=
      fun q hq => h q (List.mem_cons_of_mem _ hq)
    simp only [checkAgainstScopes, goRegexMatch, hr]
    cases hb : suffixMatch r s.data with
    | true =>
      constructor
      · intro _
        obtain ⟨a, b, hab, hbm⟩ := (suffixMatch_iff r _).mp hb
        exact ⟨p, List.mem_cons_self p rest, r, a, b, hr, hab, hbm⟩
      · intro _
        rfl
    | false =>
      show (checkAgainstScopes s rest = some (Except.ok ())) ↔ _
      rw [ih hrest]
      constructor
      · rintro ⟨q, hq, r2, a, b, hr2, hab, hbm⟩
        exact ⟨q, List.mem_cons_of_mem _ hq, r2, a, b, hr2, hab, hbm⟩
      · rintro ⟨q, hq, r2, a, b, hr2, hab, hbm⟩
        rcases List.mem_cons.mp hq with rfl | hq2
        · rw [hr] at hr2
          injection hr2 with he
          rw [← he] at hbm
          exfalso
          have hsm := (suffixMatch_iff r _).mpr ⟨a, b, hab, hbm⟩
          rw [hb] at hsm
          exact Bool.noConfusion hsm
        · exact ⟨q, hq2, r2, a, b, hr2, hab, hbm⟩

/-- Witness for C2: the scope API matches the pattern api
case-insensitively as a suffix, after the non-matching pattern xyz. -/
theorem claim2_witness : checkAgainstScopes "API" ["xyz", "api"] = some (Except.ok ()) :=
  (claim2_scope_regex_match "API" ["xyz", "api"] (by decide)).1.mpr
    ⟨"api", by decide,
      Regex.cat (Regex.chr 'a') (Regex.cat (Regex.chr 'p') (Regex.cat (Regex.chr 'i') Regex.eps)),
      [], ['A', 'P', 'I'], rfl, by decide, by decide⟩

/-- Claim C9: when the configured pattern list contains the empty pattern
(produced for instance by a trailing comma in the scopes input, as the
parseScopes conjunct shows), the scope check succeeds for every scope,
because the empty pattern compiles to a case-insensitive end-anchored
regex matching the end of any string. -/
theorem claim9_empty_pattern (s : String) (ps : List String)
    (h1 : ∀ p ∈ ps, (compileScopePattern p).isSome = true) (h2 : "" ∈ ps) :
    checkAgainstScopes s ps = some (Except.ok ()) ∧
      goRegexMatch "" s = some true ∧
      parseScopes "api," = ["api", ""] := by
  have hempty : goRegexMatch "" s = some true := by
    show some (suffixMatch Regex.eps s.data) = some true
    rw [suffixMatch_eps]
  refine ⟨?_, hempty, by decide⟩
  induction ps with
  | nil => exact absurd h2 (List.not_mem_nil "")
  | cons p rest ih =>
    obtain ⟨r, hr⟩ := Option.isSome_iff_exists.mp (h1 p (List.mem_cons_self p rest))
    simp only [checkAgainstScopes, goRegexMatch, hr]
    cases hb : suffixMatch r s.data with
    | true => rfl
    | false =>
      have hp : p ≠ "" := by
        intro he
        subst he
        have hre : some r = some Regex.eps := hr.symm.trans rfl
        injection hre with hre2
        subst hre2
        rw [suffixMatch_eps] at hb
        exact Bool.noConfusion hb
      have h2b : "" ∈ rest := by
        rcases List.mem_cons.mp h2 with he | he
        · exact absurd he.symm hp
        · exact he
      show checkAgainstScopes s rest = some (Except.ok ())
      exact ih (fun q hq => h1 q (List.mem_cons_of_mem _ hq)) h2b

/-- Witness for C9 with the pattern list produced by the input api, (a
trailing comma). -/
theorem claim9_witness :
    checkAgainstScopes "xyz" ["api", ""] = some (Except.ok ()) ∧
      goRegexMatch "" "xyz" = some true ∧
      parseScopes "api," = ["api", ""] :=
  claim9_empty_pattern "xyz" ["api", ""] (by decide) (by decide)

/-- Claim C3: for already-parsed components, the overall run passes exactly
when the type check succeeds and, whenever at least one scope pattern is
configured, the scope check succeeds too; with zero configured scope
patterns the scope check result never fails the run. -/
theorem claim3_overall_policy (ty sc : String) (types scopes : List String)
    (h : ∀ p ∈ scopes, (compileScopePattern p).isSome = true) :
    mainValidation ty sc types scopes = some true ↔
      (checkAgainstConventionTypes ty types = Except.ok () ∧
        (scopes ≠ [] → checkAgainstScopes sc scopes = some (Except.ok ()))) := by
  cases hT : checkAgainstConventionTypes ty types with
  | error e =>
    have hmain : mainValidation ty sc types scopes = some false := by
      simp only [mainValidation, hT]
    rw [hmain]
    constructor
    · intro hk
      injection hk with hk2
      exact Bool.noConfusion hk2
    · rintro ⟨hok, _⟩
      exact Except.noConfusion hok
  | ok u =>
    obtain ⟨⟩ := u
    cases scopes with
    | nil =>
      have hmain : mainValidation ty sc types [] = some true := by
        simp [mainValidation, hT, checkAgainstScopes]
      rw [hmain]
      constructor
      · intro _
        exact ⟨rfl, fun hne => absurd rfl hne⟩
      · intro _
        rfl
    | cons p rest =>
      obtain ⟨r, hcr⟩ := checkAgainstScopes_total sc (p :: rest) h
      cases r with
      | ok v =>
        obtain ⟨⟩ := v
        have hmain : mainValidation ty sc types (p :: rest) = some true := by
          simp only [mainValidation, hT, hcr]
        rw [hmain]
        constructor
        · intro _
          exact ⟨rfl, fun _ => hcr⟩
        · intro _
          rfl
      | error e2 =>
        have hlen : (p :: rest).length ≥ 1 := Nat.succ_le_succ (Nat.zero_le _)
        have hmain : mainValidation ty sc types (p :: rest) = some false := by
          simp only [mainValidation, hT, hcr]
          rw [if_pos hlen]
        rw [hmain]
        constructor
        · intro hk
          injection hk with hk2
          exact Bool.noConfusion hk2
        · rintro ⟨_, hsc⟩
          have h5 := hsc (by simp)
          rw [hcr] at h5
          injection h5 with h6
          exact Except.noConfusion h6

/-- Witness for C3: a passing run with one configured scope pattern. -/
theorem claim3_witness :
    mainValidation "feat" "api" defaultConventionTypes ["api"] = some true :=
  (claim3_overall_policy "feat" "api" defaultConventionTypes ["api"] (by decide)).mpr
    ⟨rfl, fun _ => rfl⟩

/-- Claim C8: an empty types input yields the built-in default list and an
empty scopes input yields the empty (unrestricted) list; every non-empty
input is split on commas into trimmed segments, with order and empty
segments preserved and nothing deduplicated (the segments join back to the
input). -/
theorem claim8_config_lists :
    parseTypes "" defaultConventionTypes =
        ["fix", "feat", "chore", "docs", "build", "ci", "refactor", "perf", "test"] ∧
      parseScopes "" = [] ∧
      (∀ input : String, input ≠ "" →
        ∃ segs : List (List Char),
          input.data = joinComma segs ∧
          (∀ g ∈ segs, ',' ∉ g) ∧
          parseTypes input defaultConventionTypes =
            segs.map (fun g => String.mk (trimList g)) ∧
          parseScopes input = segs.map (fun g => String.mk (trimList g))) := by
  refine ⟨rfl, rfl, ?_⟩
  intro input hne
  refine ⟨splitComma input.data, (joinComma_splitComma input.data).symm,
    splitComma_no_comma input.data, ?_, ?_⟩
  · simp only [parseTypes, if_neg hne]
  · simp only [parseScopes, if_neg hne]

/-- Witness for C8 on an input with surrounding spaces and a trailing
comma. -/
theorem claim8_witness :
    ∃ segs : List (List Char),
      (" feat , fix ,").data = joinComma segs ∧
      (∀ g ∈ segs, ',' ∉ g) ∧
      parseTypes " feat , fix ," defaultConventionTypes =
        segs.map (fun g => String.mk (trimList g)) ∧
      parseScopes " feat , fix ," = segs.map (fun g => String.mk (trimList g)) :=
  claim8_config_lists.2.2 " feat , fix ," (by decide)

/-- Counterexample to C1 as stated: the title feat(): m has a prefix
containing both parens, so the claim says the type is the trimmed text
before the first paren (feat) and the scope the text between the parens;
but the parser returns the whole prefix feat() as the type, because the
regex requires at least one character between the parens. -/
theorem claim1_counterexample :
    splitTitle "feat(): m" = Except.ok ("feat()", "", "m") ∧
      hasChar (trimList ("feat()").data) '(' = true ∧
      hasChar (trimList ("feat()").data) ')' = true ∧
      String.mk (trimList ((trimList ("feat()").data).takeWhile (fun d => d != '('))) = "feat" ∧
      ("feat()" : String) ≠ "feat" :=
  ⟨rfl, by decide, by decide, by decide, by decide⟩

/-- Claim C1 (amended): for every title containing a colon, the prefix
before the first colon is trimmed; if the trimmed prefix holds a non-empty
parenthetical group (a left paren, one or more non-right-paren characters,
a right paren), the scope is the content of the leftmost such group and the
type is the trimmed text before the first left paren; otherwise (no group,
which includes an empty () or an unmatched paren) the whole trimmed prefix
becomes the type and the scope is empty. -/
theorem claim1_amended_extraction (t : String) :
    ∀ pre msg, t.data = pre ++ ':' :: msg → ':' ∉ pre →
      ((∀ i g, IsGroupAt (trimList pre) i g →
          (∀ j g2, IsGroupAt (trimList pre) j g2 → i ≤ j) →
          extractTypeAndScope (String.mk pre) =
            (String.mk (trimList ((trimList pre).takeWhile (fun d => d != '('))),
              String.mk g)) ∧
        ((∀ i g, ¬ IsGroupAt (trimList pre) i g) →
          extractTypeAndScope (String.mk pre) = (String.mk (trimList pre), ""))) := by
  intro pre msg hdec hpre
  constructor
  · intro i g hg hmin
    cases hs : scanScope (trimList pre) with
    | none => exact absurd hg (scanScope_none_spec _ hs i g)
    | some g2 =>
      obtain ⟨i2, hg2, hmin2⟩ := scanScope_some_spec _ g2 hs
      have hii : i = i2 := Nat.le_antisymm (hmin i2 g2 hg2) (hmin2 i g hg)
      have hgg : g = g2 := isGroupAt_unique _ i g g2 hg (hii ▸ hg2)
      rw [hgg]
      exact extract_of_scan_some (String.mk pre) g2 hs
  · intro hno
    cases hs : scanScope (trimList pre) with
    | some g2 =>
      obtain ⟨i2, hg2, _⟩ := scanScope_some_spec _ g2 hs
      exact absurd hg2 (hno i2 g2)
    | none => exact extract_of_scan_none (String.mk pre) hs

/-- Witness for the amended C1 at the title (api)x: m, whose leftmost (and
only) group sits at position zero. -/
theorem claim1_witness :
    extractTypeAndScope (String.mk ("(api)x").data) =
      (String.mk (trimList ((trimList ("(api)x").data).takeWhile (fun d => d != '('))),
        String.mk ['a', 'p', 'i']) :=
  ((claim1_amended_extraction "(api)x: m") ("(api)x").data (" m").data (by decide) (by decide)).1
    0 ['a', 'p', 'i'] ⟨by decide, by decide, ("x").data, by decide⟩ (fun j g2 _ => Nat.zero_le j)

/-- Counterexample to C10 as stated: the empty JSON array is a
syntactically valid payload lacking the nested pull_request.title field,
yet fetchTitle reports an unmarshal error instead of succeeding with the
empty string. -/
theorem claim10_counterexample :
    fetchTitle (Json.arr []) = Except.error "json: cannot unmarshal" ∧
      fetchTitle (Json.arr []) ≠ Except.ok "" := by
  refine ⟨rfl, ?_⟩
  intro h
  exact Except.noConfusion
    (show (Except.error "json: cannot unmarshal" : Except String String) = Except.ok "" from h)

/-- Claim C10 (amended): for every JSON object payload whose pull_request
members (if any) are null or objects with no title member, fetching the
title succeeds with the empty string, and the run then fails during title
parsing with MissingSeparator rather than with a payload error. -/
theorem claim10_amended_missing_title (fs : List (String × Json))
    (h : ∀ kv ∈ fs, eqFold kv.1 "pull_request" = true →
        kv.2 = Json.null ∨
          ∃ pfs, kv.2 = Json.obj pfs ∧ ∀ kv2 ∈ pfs, eqFold kv2.1 "title" = false) :
    fetchTitle (Json.obj fs) = Except.ok "" ∧
      splitTitle "" = Except.error ParseError.missingSeparator :=
  ⟨fetchTitle_fold_ok fs h, rfl⟩

/-- Witness for the amended C10 on a payload whose pull_request object has
only a number member. -/
theorem claim10_witness :
    fetchTitle (Json.obj [("pull_request", Json.obj [("number", Json.num 1)])]) =
        Except.ok "" ∧
      splitTitle "" = Except.error ParseError.missingSeparator :=
  claim10_amended_missing_title [("pull_request", Json.obj [("number", Json.num 1)])]
    (by
      intro kv hkv hk
      rw [List.mem_singleton] at hkv
      subst hkv
      refine Or.inr ⟨[("number", Json.num 1)], rfl, ?_⟩
      intro kv2 hkv2
      rw [List.mem_singleton] at hkv2
      subst hkv2
      decide)

end PRTitleValidator
